import Mathlib

/-!
Shallow embedding of the photo-search embedder pipeline.

Source files modelled here:
- `src/embedder/caption.py`: zero-shot tagging pipeline — similarity scoring
  (softmax over scaled cosine similarities), tag selection (argsort + stopping
  rule), caption assembly, lexical token extraction, and tag merging.
- `src/embedder/embed_text_server.py`: the persistent line-oriented
  request/response loop serving text-embedding requests.

Python strings are modelled as Lean `String`; Python `str.strip` and
`str.lower` are modelled character-exactly on the ASCII range (all data the
program manipulates is ASCII).  Scores, which are floats in the source, are
modelled as exact rationals where only ordering and thresholds matter
(TagSelector) and as reals where the softmax is concerned (SimilarityScorer).
External capabilities (the CLIP encoder, `json.loads`) are parameters of the
model: the encoder is an arbitrary function `String → Except String (List ℚ)`,
and the outcome of parsing one input line is an `InputLine`.
-/

namespace PhotoSearch

/-- Whitespace test used by Python `str.strip`, covering the ASCII
whitespace code points (space, tab, newline, carriage return, vertical tab,
form feed). -/
def isSpaceChar (c : Char) : Bool :=
  c.toNat = 32 || c.toNat = 9 || c.toNat = 10 || c.toNat = 13 ||
    c.toNat = 11 || c.toNat = 12

/-- ASCII lower-casing of one character, as Python `str.lower` acts on the
ASCII range: code points 65–90 are shifted by 32, all else unchanged. -/
def lowerChar (c : Char) : Char :=
  if 65 ≤ c.toNat ∧ c.toNat ≤ 90 then Char.ofNat (c.toNat + 32) else c

/-- Model of Python `str.lower` (ASCII range). -/
def pyLower (s : String) : String :=
  String.mk (s.data.map lowerChar)

/-- Strip leading and trailing whitespace from a character list. -/
def stripList (l : List Char) : List Char :=
  ((l.dropWhile isSpaceChar).reverse.dropWhile isSpaceChar).reverse

/-- Model of Python `str.strip()`. -/
def pyStrip (s : String) : String :=
  String.mk (stripList s.data)

/-- Normalization applied to each tag by the merging loop in
`caption.py:103`: `tag.strip().lower()`. -/
def normTag (s : String) : String :=
  pyLower (pyStrip s)

/-! ## caption.py constants -/

/-- Hard cap on the number of selected tags (`caption.py:13`). -/
def TOP_K : Nat := 12

/-- Soft score cutoff (`caption.py:14`), exact rational value of the float
literal `0.03` as written in the source. -/
def MIN_SCORE : ℚ := 3 / 100

/-- Stopword set of `caption.py:31-33`, a Python `set` modelled as the list of
its members (only membership is ever used). -/
def STOPWORDS : List String :=
  ["a", "an", "the", "of", "and", "in", "at", "on", "for", "with", "to",
   "from", "by", "scene", "photo"]

/-! ## CaptionBuilder (`build_caption`, caption.py:36-43) -/

/-- Translation of `build_caption`: empty tag list gives the literal
`"photo"`; otherwise `tags[0]` leads and `tags[1:5]` are the extras. -/
def build_caption (tags : List String) : String :=
  match tags with
  | [] => "photo"
  | lead :: rest =>
    let extras := rest.take 4
    if extras = [] then "photo of " ++ lead
    else "photo of " ++ lead ++ " with " ++ String.intercalate ", " extras

/-! ## TokenExtractor (`extract_tokens`, caption.py:46-56) -/

/-- Character class of the regex `[a-zA-Z0-9]+` in `caption.py:47`. -/
def isAlnumChar (c : Char) : Bool :=
  (48 ≤ c.toNat && c.toNat ≤ 57) || (65 ≤ c.toNat && c.toNat ≤ 90) ||
    (97 ≤ c.toNat && c.toNat ≤ 122)

/-- Maximal runs of alphanumeric characters, in order: the semantics of
`re.findall(r"[a-zA-Z0-9]+", ·)` on a character list. -/
def alnumRuns : List Char → List (List Char)
  | [] => []
  | c :: rest =>
    if isAlnumChar c then
      (c :: rest.takeWhile isAlnumChar) :: alnumRuns (rest.dropWhile isAlnumChar)
    else
      alnumRuns rest
termination_by l => l.length
decreasing_by
· simp only [List.length_cons]
  exact Nat.lt_succ_of_le (List.dropWhile_sublist _).length_le
· simp

/-- Word list of `caption.py:47`: lower-case the caption, then take the
maximal alphanumeric runs. -/
def captionWords (caption : String) : List String :=
  (alnumRuns (pyLower caption).data).map String.mk

/-- Filter of `caption.py:51`: a word survives when its length exceeds 2 and
it is not a stopword. -/
def keepToken (w : String) : Bool :=
  decide (¬(w.length ≤ 2 ∨ w ∈ STOPWORDS))

/-- Accumulator loop of `caption.py:48-55`: `out`/`seen` hold the same
members, so one accumulator plays both roles. -/
def tokenLoop : List String → List String → List String
  | [], acc => acc
  | w :: rest, acc =>
    if w.length ≤ 2 ∨ w ∈ STOPWORDS then tokenLoop rest acc
    else if w ∈ acc then tokenLoop rest acc
    else tokenLoop rest (acc ++ [w])

/-- Translation of `extract_tokens`. -/
def extract_tokens (caption : String) : List String :=
  tokenLoop (captionWords caption) []

/-- Specification-side first-occurrence deduplication, written from the
words of the spec, "deduplicate, preserving first-occurrence order": keep
the first occurrence of each element, dropping all later ones. -/
def dedupFirst : List String → List String
  | [] => []
  | w :: rest => w :: dedupFirst (rest.filter (· ≠ w))
termination_by l => l.length
decreasing_by
simp only [List.length_cons]
exact Nat.lt_succ_of_le (List.length_filter_le _ _)

/-! ## TagSelector (caption.py:86-94) -/

/-- Contract of `torch.argsort(probs, descending=True)` (`caption.py:86`):
`perm` is a permutation of the index range and the scores read along `perm`
are non-increasing.  The call does not pass `stable=True`, and the torch
documentation states that without it the relative order of elements that
compare equal is not guaranteed; the model therefore admits every
permutation satisfying this contract.  Out-of-range reads never occur
(every entry of `perm` is an index of `probs`); `getD` supplies 0 only to
make the expression total. -/
def IsArgsortDesc (probs : List ℚ) (perm : List ℕ) : Prop :=
  perm.Perm (List.range probs.length) ∧
    List.Chain' (fun a b => probs.getD b 0 ≤ probs.getD a 0) perm

/-- Stability property asserted by the spec for the sort: whenever two
indices carry equal scores, they occur in `perm` in increasing index
(original vocabulary) order. -/
def StableTies (probs : List ℚ) (perm : List ℕ) : Prop :=
  List.Pairwise (fun i j => probs.getD i 0 = probs.getD j 0 → i < j) perm

/-- Selection loop of `caption.py:87-94`: walk the sorted indices, breaking
once `TOP_K` labels are collected, or once the score drops below `MIN_SCORE`
after at least 5 labels are collected; otherwise append `(label, score)`. -/
def selectLoop (labels : List String) (probs : List ℚ) :
    List ℕ → List (String × ℚ) → List (String × ℚ)
  | [], acc => acc
  | idx :: rest, acc =>
    let score := probs.getD idx 0
    if acc.length ≥ TOP_K then acc
    else if score < MIN_SCORE ∧ acc.length ≥ 5 then acc
    else selectLoop labels probs rest (acc ++ [(labels.getD idx "", score)])

/-- Translation of the `selected` computation of `caption.py:86-94`,
parameterized by the argsort result `perm`. -/
def tagSelect (labels : List String) (probs : List ℚ) (perm : List ℕ) :
    List (String × ℚ) :=
  selectLoop labels probs perm []

/-! ## TagMerger (caption.py:100-109) -/

/-- Merge loop of `caption.py:100-107`: normalize each entry with
`strip().lower()`, drop empties and entries already collected. -/
def mergeLoop : List String → List String → List String
  | [], acc => acc
  | tag :: rest, acc =>
    let t := normTag tag
    if t = "" ∨ t ∈ acc then mergeLoop rest acc
    else mergeLoop rest (acc ++ [t])

/-- Translation of the TagMerger: run the merge loop over `tags` followed by
`extra`, then truncate to 24 entries (`merged[:24]`, caption.py:109). -/
def mergeTags (tags extra : List String) : List String :=
  (mergeLoop (tags ++ extra) []).take 24

/-! ## SimilarityScorer (caption.py:78-84)

The similarity computation is real-valued: the image and text features are
unit vectors, their matrix product is the vector of cosine similarities,
scaled by `100.0`, and `softmax(dim=0)` normalizes the result. -/

/-- Dot product of two equal-length real vectors. -/
noncomputable def dotProd (v w : List ℝ) : ℝ :=
  (List.zipWith (· * ·) v w).sum

/-- Logits of `caption.py:83`: the cosine similarity of each label vector
with the query, scaled by the constant 100.0. -/
noncomputable def scoreLogits (q : List ℝ) (vocab : List (List ℝ)) : List ℝ :=
  vocab.map (fun t => 100 * dotProd q t)

/-- Softmax over a list of reals (`caption.py:84`): exponentiate and
normalize by the total. -/
noncomputable def softmaxList (xs : List ℝ) : List ℝ :=
  xs.map (fun x => Real.exp x / (xs.map Real.exp).sum)

/-- SimilarityScorer: probabilities of `caption.py:78-84`. -/
noncomputable def similarityScore (q : List ℝ) (vocab : List (List ℝ)) : List ℝ :=
  softmaxList (scoreLogits q vocab)

/-! ## RequestServer (embed_text_server.py:28-49)

The JSON values exchanged on the channel are modelled by `Json`; numbers are
modelled as exact rationals.  `json.loads` is Python standard-library code
outside this repository, so the outcome of parsing one input line is a
parameter of the model (`InputLine`): the line is whitespace-only, or raises
with some message, or yields a `Json` value.  Likewise the encoder
`embed_text` is an arbitrary capability `String → Except String (List ℚ)`:
`Except.error e` models any exception with message `e` raised inside the
call. -/

/-- JSON values. Objects model Python dicts produced by `json.loads`, whose
keys are unique. -/
inductive Json where
  | null : Json
  | bool (b : Bool) : Json
  | num (q : ℚ) : Json
  | str (s : String) : Json
  | arr (elems : List Json) : Json
  | obj (fields : List (String × Json)) : Json

/-- Python `repr` of a JSON-decoded value, used by `str` on containers.
String reprs use single quotes (no data in this development needs escaping);
numeric repr is the decimal form of the rational. -/
def pyRepr : Json → String
  | .null => "None"
  | .bool true => "True"
  | .bool false => "False"
  | .num q => toString q
  | .str s => "\x27" ++ s ++ "\x27"
  | .arr elems =>
    "[" ++ String.intercalate ", " (elems.attach.map (fun x => pyRepr x.1)) ++ "]"
  | .obj fields =>
    "\x7b" ++
      String.intercalate ", "
        (fields.attach.map
          (fun f => "\x27" ++ f.1.1 ++ "\x27: " ++ pyRepr f.1.2)) ++
      "\x7d"
decreasing_by
· have h := List.sizeOf_lt_of_mem x.2
  simp at h ⊢
  omega
· obtain ⟨⟨k, v⟩, hf⟩ := f
  have h := List.sizeOf_lt_of_mem hf
  simp at h ⊢
  omega

/-- Python `str()` of a JSON-decoded value (`embed_text_server.py:41`):
identity on strings, `repr` otherwise — in particular `str(None) = "None"`. -/
def pyStr : Json → String
  | .str s => s
  | j => pyRepr j

/-- Dict field lookup: `msg.get(k)` on a parsed JSON object (keys unique). -/
def getField (fields : List (String × Json)) (k : String) : Option Json :=
  match fields with
  | [] => none
  | f :: rest => if f.1 = k then some f.2 else getField rest k

/-- Test for the object constructor (`msg.get` only exists on dicts). -/
def Json.isObj : Json → Bool
  | .obj _ => true
  | _ => false

/-- Python type name of a JSON-decoded value, as it appears in the
`AttributeError` message. -/
def jsonTypeName : Json → String
  | .null => "NoneType"
  | .bool _ => "bool"
  | .num _ => "int"
  | .str _ => "str"
  | .arr _ => "list"
  | .obj _ => "dict"

/-- Message of the `AttributeError` raised by `msg.get(...)` when `msg` is
not a dict. -/
def attrErrMsg (j : Json) : String :=
  "\x27" ++ jsonTypeName j ++ "\x27 object has no attribute \x27get\x27"

/-- Response `{"id": id, "error": msg}` written by the server. -/
def errResponse (id : Json) (msg : String) : Json :=
  .obj [("id", id), ("error", .str msg)]

/-- Response `{"id": id, "vector": v}` written by the server. -/
def vecResponse (id : Json) (v : List ℚ) : Json :=
  .obj [("id", id), ("vector", .arr (v.map .num))]

/-- Query string computed at `embed_text_server.py:41`:
`str(msg.get("q", "")).strip()`. -/
def queryOf (fields : List (String × Json)) : String :=
  pyStrip (pyStr ((getField fields "q").getD (.str "")))

/-- Outcome of reading and `json.loads`-parsing one input line: stripped to
empty, raising a parse error with the given message, or yielding a value. -/
inductive InputLine where
  | blank : InputLine
  | malformed (errMsg : String) : InputLine
  | parsed (j : Json) : InputLine

/-- Per-line behaviour of the loop body of `embed_text_server.py:34-48`:
blank lines produce no output; a parse failure is caught by the handler,
which emits an error response with a `None` id; on a parsed value the `try`
block reads `id` and `q`, answers `empty query` (with the id of the request) when
the stripped query is empty, and otherwise calls the encoder — a response
carrying the id and vector on success, while any exception (including an
`AttributeError` when the value is not a dict) reaches the same handler and
is reported with a `None` id. -/
def processLine (encode : String → Except String (List ℚ)) :
    InputLine → List Json
  | .blank => []
  | .malformed e => [errResponse .null e]
  | .parsed m =>
    match m with
    | .obj fields =>
      let reqId := (getField fields "id").getD .null
      let query := queryOf fields
      if query = "" then [errResponse reqId "empty query"]
      else
        match encode query with
        | .ok v => [vecResponse reqId v]
        | .error e => [errResponse .null e]
    | j => [errResponse .null (attrErrMsg j)]

/-- Whole run of the server loop (`embed_text_server.py:34-49`) on a finite
input stream: the concatenation, line by line, of the responses written.
The loop never exits early — it always consumes the stream to end-of-input. -/
def serverRun (encode : String → Except String (List ℚ)) :
    List InputLine → List Json
  | [] => []
  | l :: rest => processLine encode l ++ serverRun encode rest

/-! ## Character and string lemmas -/

theorem toNat_ofNat_lt (n : Nat) (h : n < 55296) : (Char.ofNat n).toNat = n := by
  unfold Char.ofNat
  rw [dif_pos (Or.inl h)]
  rfl

theorem lowerChar_toNat_of_upper (c : Char) (h : 65 ≤ c.toNat ∧ c.toNat ≤ 90) :
    (lowerChar c).toNat = c.toNat + 32 := by
  rw [lowerChar, if_pos h]
  exact toNat_ofNat_lt _ (by omega)

theorem lowerChar_eq_self (c : Char) (h : ¬(65 ≤ c.toNat ∧ c.toNat ≤ 90)) :
    lowerChar c = c := by
  rw [lowerChar, if_neg h]

theorem isSpaceChar_lowerChar (c : Char) :
    isSpaceChar (lowerChar c) = isSpaceChar c := by
  by_cases h : 65 ≤ c.toNat ∧ c.toNat ≤ 90
  · have h2 := lowerChar_toNat_of_upper c h
    rw [Bool.eq_iff_iff]
    simp only [isSpaceChar, h2, Bool.or_eq_true, decide_eq_true_eq]
    omega
  · rw [lowerChar_eq_self c h]

theorem lowerChar_idem (c : Char) : lowerChar (lowerChar c) = lowerChar c := by
  by_cases h : 65 ≤ c.toNat ∧ c.toNat ≤ 90
  · have h2 := lowerChar_toNat_of_upper c h
    apply lowerChar_eq_self
    omega
  · rw [lowerChar_eq_self c h]
    exact lowerChar_eq_self c h

theorem comp_lowerChar_lowerChar : lowerChar ∘ lowerChar = lowerChar :=
  funext lowerChar_idem

theorem comp_isSpaceChar_lowerChar : isSpaceChar ∘ lowerChar = isSpaceChar :=
  funext isSpaceChar_lowerChar

theorem pyLower_idem (s : String) : pyLower (pyLower s) = pyLower s := by
  apply congrArg String.mk
  show (s.data.map lowerChar).map lowerChar = s.data.map lowerChar
  rw [List.map_map, comp_lowerChar_lowerChar]

theorem stripList_map_lowerChar (l : List Char) :
    stripList (l.map lowerChar) = (stripList l).map lowerChar := by
  unfold stripList
  rw [List.dropWhile_map, comp_isSpaceChar_lowerChar, ← List.map_reverse,
    List.dropWhile_map, comp_isSpaceChar_lowerChar, ← List.map_reverse]

theorem dropWhile_idem (p : Char → Bool) (l : List Char) :
    List.dropWhile p (List.dropWhile p l) = List.dropWhile p l := by
  induction l with
  | nil => rfl
  | cons c rest ih =>
    by_cases h : p c
    · simp only [List.dropWhile_cons, if_pos h]
      exact ih
    · simp only [List.dropWhile_cons, if_neg h]

theorem head?_dropWhile_false (p : Char → Bool) (l : List Char) (c : Char)
    (h : (List.dropWhile p l).head? = some c) : p c = false := by
  induction l with
  | nil => simp [List.dropWhile] at h
  | cons a rest ih =>
    by_cases hp : p a
    · rw [List.dropWhile_cons, if_pos hp] at h
      exact ih h
    · rw [List.dropWhile_cons, if_neg hp] at h
      simp only [List.head?_cons, Option.some.injEq] at h
      subst h
      exact Bool.eq_false_iff.mpr hp

theorem dropWhile_eq_self_of_head (p : Char → Bool) (l : List Char)
    (h : ∀ c, l.head? = some c → p c = false) :
    List.dropWhile p l = l := by
  cases l with
  | nil => rfl
  | cons c rest =>
    rw [List.dropWhile_cons, if_neg]
    rw [h c rfl]
    simp

theorem stripList_idem (l : List Char) :
    stripList (stripList l) = stripList l := by
  have key : ∀ m : List Char,
      ((List.dropWhile isSpaceChar m).reverse.dropWhile isSpaceChar).reverse.dropWhile
          isSpaceChar =
        ((List.dropWhile isSpaceChar m).reverse.dropWhile isSpaceChar).reverse := by
    intro m
    apply dropWhile_eq_self_of_head
    intro c hc
    have hsuf : (List.dropWhile isSpaceChar m).reverse.dropWhile isSpaceChar <:+
        (List.dropWhile isSpaceChar m).reverse := List.dropWhile_suffix _
    obtain ⟨r, hr⟩ := hsuf
    have hAhead : (List.dropWhile isSpaceChar m).head? = some c := by
      have hrev := congrArg List.reverse hr
      rw [List.reverse_append, List.reverse_reverse] at hrev
      rw [← hrev]
      cases hB :
          (List.dropWhile isSpaceChar m).reverse.dropWhile isSpaceChar |>.reverse with
      | nil => rw [hB] at hc; simp at hc
      | cons x t =>
        rw [hB] at hc
        simp only [List.head?_cons, Option.some.injEq] at hc
        subst hc
        simp
    exact head?_dropWhile_false _ _ _ hAhead
  show (((stripList l).dropWhile isSpaceChar).reverse.dropWhile isSpaceChar).reverse =
    stripList l
  unfold stripList
  rw [key l, List.reverse_reverse, dropWhile_idem]

theorem pyStrip_idem (s : String) : pyStrip (pyStrip s) = pyStrip s := by
  apply congrArg String.mk
  show stripList (stripList s.data) = stripList s.data
  exact stripList_idem s.data

theorem pyStrip_pyLower (s : String) :
    pyStrip (pyLower s) = pyLower (pyStrip s) := by
  apply congrArg String.mk
  show stripList (s.data.map lowerChar) = (stripList s.data).map lowerChar
  exact stripList_map_lowerChar s.data

theorem normTag_idem (s : String) : normTag (normTag s) = normTag s := by
  unfold normTag
  rw [pyStrip_pyLower, pyLower_idem, pyStrip_idem]

theorem pyLower_normTag (s : String) : pyLower (normTag s) = normTag s := by
  unfold normTag
  rw [pyLower_idem]

/-! ## TagMerger lemmas -/

theorem mergeLoop_nodup (L : List String) :
    ∀ acc : List String, acc.Nodup → (mergeLoop L acc).Nodup := by
  induction L with
  | nil => intro acc h; exact h
  | cons tag rest ih =>
    intro acc h
    by_cases hc : normTag tag = "" ∨ normTag tag ∈ acc
    · rw [mergeLoop, if_pos hc]
      exact ih acc h
    · rw [mergeLoop, if_neg hc]
      apply ih
      rw [List.nodup_append]
      refine ⟨h, List.nodup_singleton _, ?_⟩
      rw [List.disjoint_singleton]
      exact fun hm => hc (Or.inr hm)

theorem mergeLoop_good (L : List String) :
    ∀ acc : List String, (∀ t ∈ acc, t ≠ "" ∧ normTag t = t) →
      ∀ t ∈ mergeLoop L acc, t ≠ "" ∧ normTag t = t := by
  induction L with
  | nil => intro acc h; exact h
  | cons tag rest ih =>
    intro acc h
    by_cases hc : normTag tag = "" ∨ normTag tag ∈ acc
    · rw [mergeLoop, if_pos hc]
      exact ih acc h
    · rw [mergeLoop, if_neg hc]
      apply ih
      intro t ht
      rcases List.mem_append.mp ht with hl | hr
      · exact h t hl
      · rw [List.mem_singleton] at hr
        subst hr
        exact ⟨fun he => hc (Or.inl he), normTag_idem tag⟩

theorem mergeLoop_fixed (L : List String) :
    ∀ acc : List String, (∀ t ∈ L, t ≠ "" ∧ normTag t = t) → L.Nodup →
      (∀ t ∈ L, t ∉ acc) → mergeLoop L acc = acc ++ L := by
  induction L with
  | nil => intro acc _ _ _; rw [mergeLoop, List.append_nil]
  | cons t rest ih =>
    intro acc hg hn hd
    have hgt := hg t (List.mem_cons_self t rest)
    have hnt : normTag t = t := hgt.2
    rw [mergeLoop]
    rw [if_neg]
    · rw [hnt, ih (acc ++ [t])]
      · rw [List.append_cons acc t rest]
      · exact fun x hx => hg x (List.mem_cons_of_mem t hx)
      · exact (List.nodup_cons.mp hn).2
      · intro x hx
        rw [List.mem_append, List.mem_singleton]
        rintro (hxa | hxt)
        · exact hd x (List.mem_cons_of_mem t hx) hxa
        · exact (List.nodup_cons.mp hn).1 (hxt ▸ hx)
    · rw [hnt]
      rintro (he | hm)
      · exact hgt.1 he
      · exact hd t (List.mem_cons_self t rest) hm

/-- C4: TagMerger output has no duplicate entries under case-insensitive
comparison, has length at most 24, and merging is idempotent:
`merge(merge(T, E), [])` returns the very same sequence as `merge(T, E)`. -/
theorem mergeTags_dedup_capped_idem (T E : List String) :
    (mergeTags T E).length ≤ 24 ∧
    List.Pairwise (fun a b => pyLower a ≠ pyLower b) (mergeTags T E) ∧
    mergeTags (mergeTags T E) [] = mergeTags T E := by
  have hnodup : (mergeLoop (T ++ E) []).Nodup :=
    mergeLoop_nodup (T ++ E) [] List.nodup_nil
  have hgood : ∀ t ∈ mergeLoop (T ++ E) [], t ≠ "" ∧ normTag t = t :=
    mergeLoop_good (T ++ E) [] (by intro t ht; simp at ht)
  have hMnodup : (mergeTags T E).Nodup :=
    hnodup.sublist (List.take_sublist 24 _)
  have hMgood : ∀ t ∈ mergeTags T E, t ≠ "" ∧ normTag t = t := by
    intro t ht
    exact hgood t (List.mem_of_mem_take ht)
  refine ⟨List.length_take_le 24 _, ?_, ?_⟩
  · apply List.Pairwise.imp_of_mem ?_ hMnodup
    intro a b ha hb hne
    have hla : pyLower a = a := (hMgood a ha).2 ▸ pyLower_normTag _
    have hlb : pyLower b = b := (hMgood b hb).2 ▸ pyLower_normTag _
    rw [hla, hlb]
    exact hne
  · show (mergeLoop (mergeTags T E ++ []) []).take 24 = mergeTags T E
    rw [List.append_nil]
    rw [mergeLoop_fixed (mergeTags T E) [] hMgood hMnodup (by intro t _ h; simp at h)]
    rw [List.nil_append]
    exact List.take_of_length_le (List.length_take_le 24 _)

/-! ## CaptionBuilder -/

/-- C5: CaptionBuilder is a deterministic pure function of the ordered tag
list (it is a Lean function, hence pure): the empty list returns the literal
"photo"; a single tag returns "photo of x"; otherwise at most the next 4
tags (indices 1 to 4) are joined with ", " and the result is
"photo of LEAD with EXTRAS"; in particular ["a","b","c"] returns
"photo of a with b, c". -/
theorem build_caption_spec :
    build_caption [] = "photo" ∧
    (∀ x, build_caption [x] = "photo of " ++ x) ∧
    (∀ lead rest, rest ≠ ([] : List String) →
      build_caption (lead :: rest) =
        "photo of " ++ lead ++ " with " ++ String.intercalate ", " (rest.take 4)) ∧
    build_caption ["a", "b", "c"] = "photo of a with b, c" := by
  refine ⟨rfl, fun x => rfl, fun lead rest h => ?_, by decide⟩
  have hne : rest.take 4 ≠ [] := by
    cases rest with
    | nil => exact absurd rfl h
    | cons a t => simp [List.take]
  rw [build_caption]
  simp only [if_neg hne]

/-- Closed witness for the quantified clause of `build_caption_spec`,
instantiated at lead "a" and rest ["b", "c"]. -/
theorem build_caption_spec_witness :
    (["b", "c"] : List String) ≠ [] ∧
    build_caption ["a", "b", "c"] = "photo of a with b, c" := by
  refine ⟨by decide, ?_⟩
  have h := build_caption_spec.2.2.1 "a" ["b", "c"] (by decide)
  rw [h]
  decide

/-! ## RequestServer theorems -/

/-- C8: a line that fails to parse produces exactly one error response, with
a null id, and the loop continues: on any stream that puts a malformed line
between a prefix and a suffix of further lines, the whole run emits the
responses of the prefix, then the single parse-error response, then the
responses of the suffix — the server reaches end-of-input and still answers
the lines after the malformed one. -/
theorem serverRun_malformed_line (encode : String → Except String (List ℚ))
    (pre post : List InputLine) (e : String) :
    serverRun encode (pre ++ InputLine.malformed e :: post) =
      serverRun encode pre ++ errResponse .null e :: serverRun encode post := by
  induction pre with
  | nil => rfl
  | cons l rest ih =>
    show processLine encode l ++ serverRun encode (rest ++ _ :: post) = _
    rw [ih]
    rw [serverRun, List.append_assoc]

/-- C10: a line holding valid JSON that is not an object is answered by an
error response with a null id — the same shape as a parse error, produced by
the per-line exception handler catching the AttributeError — and the loop
continues with the rest of the stream. -/
theorem serverRun_nonobject_line (encode : String → Except String (List ℚ))
    (pre post : List InputLine) (j : Json) (h : j.isObj = false) :
    serverRun encode (pre ++ InputLine.parsed j :: post) =
      serverRun encode pre ++
        errResponse .null (attrErrMsg j) :: serverRun encode post := by
  have hp : processLine encode (.parsed j) = [errResponse .null (attrErrMsg j)] := by
    cases j with
    | obj fields => simp [Json.isObj] at h
    | null => rfl
    | bool b => rfl
    | num q => rfl
    | str s => rfl
    | arr elems => rfl
  induction pre with
  | nil =>
    show processLine encode (.parsed j) ++ serverRun encode post = _
    rw [hp]
    rfl
  | cons l rest ih =>
    show processLine encode l ++ serverRun encode (rest ++ _ :: post) = _
    rw [ih]
    rw [serverRun, List.append_assoc]

/-- Closed witness for `serverRun_nonobject_line`: the stream holding the
single line `[]` (a JSON array) is answered by one AttributeError-shaped
response with a null id. -/
theorem serverRun_nonobject_line_witness :
    (Json.arr []).isObj = false ∧
    serverRun (fun _ => .ok []) [InputLine.parsed (Json.arr [])] =
      [errResponse .null (attrErrMsg (Json.arr []))] := by
  refine ⟨rfl, ?_⟩
  exact serverRun_nonobject_line (fun _ => .ok []) [] [] (Json.arr []) rfl

theorem pyStr_null : pyStr Json.null = "None" := by
  simp [pyStr, pyRepr]

theorem processLine_obj (encode : String → Except String (List ℚ))
    (fields : List (String × Json)) :
    processLine encode (InputLine.parsed (Json.obj fields)) =
      if queryOf fields = "" then
        [errResponse ((getField fields "id").getD .null) "empty query"]
      else
        match encode (queryOf fields) with
        | .ok v => [vecResponse ((getField fields "id").getD .null) v]
        | .error e => [errResponse .null e] := rfl

/-- C9: for every request line that is a JSON object whose q field is JSON
null — whatever the id, the field order, or any further fields — the server
does not emit the empty query error: str() coerces null to the non-empty
string "None", so the encoder is invoked on the query "None", and the
response is the vector response for the request id when encoding succeeds
and the error response of the exception handler when it fails. -/
theorem server_null_query_universal (encode : String → Except String (List ℚ))
    (fields : List (String × Json)) (hq : getField fields "q" = some Json.null) :
    queryOf fields = "None" ∧
    ("None" : String) ≠ "" ∧
    processLine encode (InputLine.parsed (Json.obj fields)) =
      [match encode "None" with
       | .ok v => vecResponse ((getField fields "id").getD .null) v
       | .error e => errResponse .null e] := by
  have hquery : queryOf fields = "None" := by
    show pyStrip (pyStr ((getField fields "q").getD (Json.str ""))) = "None"
    rw [hq]
    show pyStrip (pyStr Json.null) = "None"
    rw [pyStr_null]
    decide
  refine ⟨hquery, by decide, ?_⟩
  rw [processLine_obj, hquery]
  rw [if_neg (by decide : ¬("None" : String) = "")]
  cases encode "None" with
  | ok v => rfl
  | error e => rfl

/-- Closed witness for `server_null_query_universal`: the request
`{"id": 7, "q": null}` with an encoder that returns the vector [1] is
answered by the vector response for id 7, not the empty query error. -/
theorem server_null_query_universal_witness :
    getField [("id", Json.num 7), ("q", Json.null)] "q" = some Json.null ∧
    processLine (fun _ => .ok [1])
        (InputLine.parsed (Json.obj [("id", Json.num 7), ("q", Json.null)])) =
      [vecResponse (Json.num 7) [1]] := by
  refine ⟨rfl, ?_⟩
  have h := (server_null_query_universal (fun _ => .ok [1])
    [("id", Json.num 7), ("q", Json.null)] rfl).2.2
  rw [h]
  rfl

/-- C1 counterexample: at the request `{"id": 7, "q": "x"}` with an encoder
that fails with message "boom", the server emits the error response with a
NULL id — the per-line exception handler of `embed_text_server.py:47-48`
always writes `{"id": None, "error": str(exc)}` — so the emitted response is
not the response carrying the original id 7 that the claim asserts. -/
theorem encode_failure_keeps_id_cex :
    serverRun (fun _ => .error "boom")
        [InputLine.parsed (Json.obj [("id", Json.num 7), ("q", Json.str "x")])] =
      [errResponse .null "boom"] ∧
    errResponse .null "boom" ≠ errResponse (Json.num 7) "boom" := by
  constructor
  · rw [show serverRun (fun _ => .error "boom")
        [InputLine.parsed (Json.obj [("id", Json.num 7), ("q", Json.str "x")])] =
        processLine (fun _ => .error "boom")
          (InputLine.parsed (Json.obj [("id", Json.num 7), ("q", Json.str "x")])) ++
          [] from rfl]
    rw [processLine_obj]
    rw [show queryOf [("id", Json.num 7), ("q", Json.str "x")] = "x" from by decide]
    rw [if_neg (by decide : ¬("x" : String) = "")]
    rfl
  · intro h
    rw [errResponse, errResponse] at h
    have h2 := (List.cons.injEq _ _ _ _).mp ((Json.obj.injEq _ _).mp h)
    have h3 := (Prod.mk.injEq _ _ _ _).mp h2.1
    exact Json.noConfusion h3.2

/-- C1 amended: for every request line that parses to a JSON object, has a
non-empty stripped query, and whose encoding call fails, the server emits an
error-shaped response whose id field is null (the exception handler at
`embed_text_server.py:47-48` discards the request id), and the loop
continues with the rest of the stream. -/
theorem serverRun_encode_failure_null_id (encode : String → Except String (List ℚ))
    (pre post : List InputLine) (fields : List (String × Json)) (e : String)
    (hq : queryOf fields ≠ "") (henc : encode (queryOf fields) = .error e) :
    serverRun encode (pre ++ InputLine.parsed (Json.obj fields) :: post) =
      serverRun encode pre ++ errResponse .null e :: serverRun encode post := by
  have hp : processLine encode (.parsed (Json.obj fields)) =
      [errResponse .null e] := by
    rw [processLine_obj, if_neg hq, henc]
  induction pre with
  | nil =>
    show processLine encode (.parsed (Json.obj fields)) ++ serverRun encode post = _
    rw [hp]
    rfl
  | cons l rest ih =>
    show processLine encode l ++ serverRun encode (rest ++ _ :: post) = _
    rw [ih]
    rw [serverRun, List.append_assoc]

/-- Closed witness for `serverRun_encode_failure_null_id`: the request
`{"id": 7, "q": "x"}` with an always-failing encoder. -/
theorem serverRun_encode_failure_null_id_witness :
    queryOf [("id", Json.num 7), ("q", Json.str "x")] ≠ "" ∧
    serverRun (fun _ => .error "enc fail")
        [InputLine.parsed (Json.obj [("id", Json.num 7), ("q", Json.str "x")])] =
      [errResponse .null "enc fail"] := by
  refine ⟨by decide, ?_⟩
  exact serverRun_encode_failure_null_id (fun _ => .error "enc fail") [] []
    [("id", Json.num 7), ("q", Json.str "x")] "enc fail" (by decide) rfl

/-! ## TokenExtractor lemmas -/

theorem tokenLoop_eq (L : List String) :
    ∀ acc : List String,
      tokenLoop L acc =
        acc ++ dedupFirst (L.filter (fun w => keepToken w && decide (w ∉ acc))) := by
  induction L with
  | nil => intro acc; simp [tokenLoop, dedupFirst]
  | cons w rest ih =>
    intro acc
    by_cases h1 : w.length ≤ 2 ∨ w ∈ STOPWORDS
    · have hk : keepToken w = false := by simp [keepToken, h1]
      rw [tokenLoop, if_pos h1, ih acc]
      congr 2
      rw [List.filter_cons]
      rw [hk]
      simp
    · have hk : keepToken w = true := by
        simp only [keepToken, decide_eq_true_eq]
        exact h1
      by_cases h2 : w ∈ acc
      · rw [tokenLoop, if_neg h1, if_pos h2, ih acc]
        congr 2
        rw [List.filter_cons]
        have : (keepToken w && decide (w ∉ acc)) = false := by
          simp [hk, h2]
        rw [this]
        simp
      · rw [tokenLoop, if_neg h1, if_neg h2, ih (acc ++ [w])]
        rw [List.append_assoc, List.singleton_append]
        congr 1
        have hhead : (keepToken w && decide (w ∉ acc)) = true := by
          simp [hk, h2]
        rw [List.filter_cons, hhead]
        rw [if_pos (rfl : true = true)]
        simp only [dedupFirst]
        congr 1
        rw [List.filter_filter]
        congr 1
        apply List.filter_congr
        intro x _
        by_cases haw : x = w <;> by_cases haa : x ∈ acc <;>
          simp [haw, haa, List.mem_append]

/-- C6: TokenExtractor lower-cases the caption, takes the maximal runs of
alphanumeric characters in order (`captionWords`), drops every token of
length at most 2 and every stopword (the stopword set holds "scene" and
"photo"), and returns the surviving tokens deduplicated in first-occurrence
order. -/
theorem extract_tokens_spec (caption : String) :
    extract_tokens caption =
      dedupFirst ((captionWords caption).filter keepToken) ∧
    "scene" ∈ STOPWORDS ∧ "photo" ∈ STOPWORDS := by
  refine ⟨?_, by decide, by decide⟩
  show tokenLoop (captionWords caption) [] = _
  rw [tokenLoop_eq]
  rw [List.nil_append]
  congr 1
  apply List.filter_congr
  intro x _
  simp

/-! ## TagSelector lemmas -/

theorem selectLoop_take (labels : List String) (probs : List ℚ) (l : List ℕ) :
    ∀ acc, ∃ m, selectLoop labels probs l acc =
      acc ++ (l.take m).map (fun i => (labels.getD i "", probs.getD i 0)) := by
  induction l with
  | nil => intro acc; exact ⟨0, by simp [selectLoop]⟩
  | cons idx rest ih =>
    intro acc
    by_cases h1 : acc.length ≥ TOP_K
    · exact ⟨0, by simp [selectLoop, if_pos h1]⟩
    · by_cases h2 : probs.getD idx 0 < MIN_SCORE ∧ acc.length ≥ 5
      · refine ⟨0, ?_⟩
        simp only [selectLoop, if_neg h1, if_pos h2]
        simp
      · obtain ⟨m, hm⟩ := ih (acc ++ [(labels.getD idx "", probs.getD idx 0)])
        refine ⟨m + 1, ?_⟩
        simp only [selectLoop, if_neg h1, if_neg h2]
        rw [hm, List.take_succ_cons, List.map_cons]
        simp

theorem selectLoop_length_le (labels : List String) (probs : List ℚ) (l : List ℕ) :
    ∀ acc : List (String × ℚ), acc.length ≤ TOP_K →
      (selectLoop labels probs l acc).length ≤ TOP_K := by
  induction l with
  | nil => intro acc h; simpa [selectLoop] using h
  | cons idx rest ih =>
    intro acc h
    by_cases h1 : acc.length ≥ TOP_K
    · simp only [selectLoop, if_pos h1]
      exact h
    · by_cases h2 : probs.getD idx 0 < MIN_SCORE ∧ acc.length ≥ 5
      · simp only [selectLoop, if_neg h1, if_pos h2]
        exact h
      · simp only [selectLoop, if_neg h1, if_neg h2]
        apply ih
        rw [List.length_append]
        unfold TOP_K at h1 ⊢
        simp only [List.length_singleton]
        omega

theorem selectLoop_length_ge (labels : List String) (probs : List ℚ) (l : List ℕ) :
    ∀ acc : List (String × ℚ),
      min 5 (acc.length + l.length) ≤ (selectLoop labels probs l acc).length := by
  induction l with
  | nil =>
    intro acc
    simp only [selectLoop, List.length_nil]
    omega
  | cons idx rest ih =>
    intro acc
    by_cases h1 : acc.length ≥ TOP_K
    · simp only [selectLoop, if_pos h1]
      unfold TOP_K at h1
      omega
    · by_cases h2 : probs.getD idx 0 < MIN_SCORE ∧ acc.length ≥ 5
      · simp only [selectLoop, if_neg h1, if_pos h2]
        have h5 := h2.2
        omega
      · simp only [selectLoop, if_neg h1, if_neg h2]
        have hrec := ih (acc ++ [(labels.getD idx "", probs.getD idx 0)])
        rw [List.length_append] at hrec
        simp only [List.length_singleton] at hrec
        simp only [List.length_cons]
        omega

/-- C3: for every score sequence over a vocabulary of size n and every
permutation the unstable argsort may return, TagSelector returns between
`min(minForced, n)` and `topK = 12` tags, listed in non-increasing score
order; at least 5 tags are produced whenever `n ≥ 5` (the hard cap stops the
loop at 12 labels and the soft cutoff below `minScore = 0.03` only fires
once at least 5 labels are collected). -/
theorem tagSelect_bounds_sorted (labels : List String) (probs : List ℚ)
    (perm : List ℕ) (hlen : labels.length = probs.length)
    (hsort : IsArgsortDesc probs perm) :
    min 5 probs.length ≤ (tagSelect labels probs perm).length ∧
    (tagSelect labels probs perm).length ≤ 12 ∧
    List.Chain' (fun p q => q.2 ≤ p.2) (tagSelect labels probs perm) ∧
    (5 ≤ probs.length → 5 ≤ (tagSelect labels probs perm).length) := by
  have hperm : perm.length = probs.length := by
    have h := hsort.1.length_eq
    simpa using h
  have hlow : min 5 probs.length ≤ (tagSelect labels probs perm).length := by
    have h := selectLoop_length_ge labels probs perm []
    simpa [tagSelect, hperm] using h
  have hup : (tagSelect labels probs perm).length ≤ 12 := by
    have h := selectLoop_length_le labels probs perm [] (by simp [TOP_K])
    simpa [tagSelect, TOP_K] using h
  refine ⟨hlow, hup, ?_, fun h5 => by omega⟩
  obtain ⟨m, hm⟩ := selectLoop_take labels probs perm []
  show List.Chain' _ (selectLoop labels probs perm [])
  rw [hm, List.nil_append]
  rw [List.chain'_map]
  haveI : IsTrans ℕ (fun a b => probs.getD b 0 ≤ probs.getD a 0) :=
    ⟨fun _ _ _ hab hbc => le_trans hbc hab⟩
  exact hsort.2.sublist (List.take_sublist m perm)

/-- Closed witness for `tagSelect_bounds_sorted` at the vocabulary
["a", "b"], scores [1/2, 1/2] and the argsort output [0, 1]. -/
theorem tagSelect_bounds_sorted_witness :
    (["a", "b"] : List String).length = ([1/2, 1/2] : List ℚ).length ∧
    IsArgsortDesc [1/2, 1/2] [0, 1] ∧
    (min 5 ([1/2, 1/2] : List ℚ).length ≤
        (tagSelect ["a", "b"] [1/2, 1/2] [0, 1]).length ∧
      (tagSelect ["a", "b"] [1/2, 1/2] [0, 1]).length ≤ 12 ∧
      List.Chain' (fun p q => q.2 ≤ p.2) (tagSelect ["a", "b"] [1/2, 1/2] [0, 1]) ∧
      (5 ≤ ([1/2, 1/2] : List ℚ).length →
        5 ≤ (tagSelect ["a", "b"] [1/2, 1/2] [0, 1]).length)) := by
  have hchain : List.Chain'
      (fun a b => ([1/2, 1/2] : List ℚ).getD b 0 ≤ ([1/2, 1/2] : List ℚ).getD a 0)
      [0, 1] := by
    simp only [List.chain'_cons, List.chain'_singleton, and_true,
      List.getD_cons_succ, List.getD_cons_zero]
    norm_num
  refine ⟨by decide, ⟨by decide, hchain⟩, ?_⟩
  exact tagSelect_bounds_sorted ["a", "b"] [1/2, 1/2] [0, 1] (by decide)
    ⟨by decide, hchain⟩

/-- C2 counterexample: the claim asserts a stable tie-break, but the source
calls `torch.argsort(probs, descending=True)` without `stable=True`, whose
contract only guarantees descending order: at the score vector [0, 0], the
permutation [1, 0] satisfies that contract while placing the two equal
scores in reversed vocabulary order. -/
theorem argsort_stable_ties_cex :
    IsArgsortDesc [0, 0] [1, 0] ∧ ¬ StableTies [0, 0] [1, 0] := by
  constructor
  · refine ⟨by decide, ?_⟩
    simp only [List.chain'_cons, List.chain'_singleton, and_true,
      List.getD_cons_succ, List.getD_cons_zero]
    norm_num
  · intro h
    have h10 := (List.pairwise_cons.mp h).1 0 (by decide)
    exact absurd (h10 rfl) (by decide)

/-- C2 amended: the label/score pairs are sorted by score descending — the
score sequence read along any permutation the argsort may return is exactly
the canonical non-increasing rearrangement of the scores — but the relative
order of labels with equal scores is unspecified, since `torch.argsort` is
called without `stable=True`. -/
theorem argsort_scores_canonical (probs : List ℚ) (perm : List ℕ)
    (h : IsArgsortDesc probs perm) :
    perm.map (fun i => probs.getD i 0) =
      List.insertionSort (fun a b => b ≤ a) probs := by
  haveI : IsTrans ℚ (fun a b : ℚ => b ≤ a) := ⟨fun _ _ _ hab hbc => le_trans hbc hab⟩
  haveI : IsTotal ℚ (fun a b : ℚ => b ≤ a) := ⟨fun a b => le_total b a⟩
  haveI : IsAntisymm ℚ (fun a b : ℚ => b ≤ a) := ⟨fun _ _ hab hba => le_antisymm hba hab⟩
  have h1 : List.Perm (perm.map (fun i => probs.getD i 0))
      ((List.range probs.length).map (fun i => probs.getD i 0)) := h.1.map _
  have h2 : (List.range probs.length).map (fun i => probs.getD i 0) = probs := by
    apply List.ext_getElem
    · simp
    · intro i hi1 hi2
      simp only [List.getElem_map, List.getElem_range]
      rw [List.getD_eq_getElem]
  rw [h2] at h1
  have hp2 : List.Perm (perm.map (fun i => probs.getD i 0))
      (List.insertionSort (fun a b : ℚ => b ≤ a) probs) :=
    h1.trans (List.perm_insertionSort _ _).symm
  have hs1 : List.Sorted (fun a b : ℚ => b ≤ a) (perm.map (fun i => probs.getD i 0)) := by
    show List.Pairwise _ _
    rw [List.pairwise_map]
    haveI : IsTrans ℕ (fun a b => probs.getD b 0 ≤ probs.getD a 0) :=
      ⟨fun _ _ _ hab hbc => le_trans hbc hab⟩
    exact List.chain'_iff_pairwise.mp h.2
  exact List.eq_of_perm_of_sorted hp2 hs1 (List.sorted_insertionSort _ _)

/-- Closed witness for `argsort_scores_canonical` at the scores
[1/2, 1/4, 1/2] and the (tie-reversing) argsort output [2, 0, 1]. -/
theorem argsort_scores_canonical_witness :
    IsArgsortDesc [1/2, 1/4, 1/2] [2, 0, 1] ∧
    ([2, 0, 1] : List ℕ).map (fun i => ([1/2, 1/4, 1/2] : List ℚ).getD i 0) =
      List.insertionSort (fun a b => b ≤ a) [1/2, 1/4, 1/2] := by
  have hchain : List.Chain'
      (fun a b => ([1/2, 1/4, 1/2] : List ℚ).getD b 0 ≤
        ([1/2, 1/4, 1/2] : List ℚ).getD a 0) [2, 0, 1] := by
    simp only [List.chain'_cons, List.chain'_singleton, and_true,
      List.getD_cons_succ, List.getD_cons_zero]
    norm_num
  refine ⟨⟨by decide, hchain⟩, ?_⟩
  exact argsort_scores_canonical [1/2, 1/4, 1/2] [2, 0, 1] ⟨by decide, hchain⟩

/-! ## SimilarityScorer theorems -/

/-- C7: for every vocabulary of size n ≥ 1 and every query vector of
matching dimension, the SimilarityScorer output — the softmax of the cosine
similarities scaled by 100.0 — is a sequence of n scores, each in [0, 1],
whose sum is 1. -/
theorem similarityScore_prob (q : List ℝ) (vocab : List (List ℝ))
    (hne : vocab ≠ []) (hdim : ∀ t ∈ vocab, t.length = q.length) :
    (∀ s ∈ similarityScore q vocab, 0 ≤ s ∧ s ≤ 1) ∧
    (similarityScore q vocab).sum = 1 ∧
    (similarityScore q vocab).length = vocab.length := by
  set L := scoreLogits q vocab with hL
  have hLne : L ≠ [] := by
    rw [hL, scoreLogits]
    simpa using hne
  set E := (L.map Real.exp).sum with hE
  have hEpos : 0 < E := by
    rw [hE]
    apply List.sum_pos
    · intro x hx
      obtain ⟨y, _, rfl⟩ := List.mem_map.mp hx
      exact Real.exp_pos y
    · simpa using hLne
  refine ⟨?_, ?_, ?_⟩
  · intro s hs
    obtain ⟨x, hx, rfl⟩ := List.mem_map.mp hs
    constructor
    · exact div_nonneg (Real.exp_nonneg x) (le_of_lt hEpos)
    · rw [div_le_one hEpos]
      apply List.single_le_sum
      · intro y hy
        obtain ⟨z, _, rfl⟩ := List.mem_map.mp hy
        exact Real.exp_nonneg z
      · exact List.mem_map_of_mem Real.exp hx
  · show (L.map (fun x => Real.exp x / E)).sum = 1
    simp only [div_eq_mul_inv]
    rw [List.sum_map_mul_right]
    exact mul_inv_cancel₀ (ne_of_gt hEpos)
  · simp [similarityScore, softmaxList, scoreLogits]

/-- Closed witness for `similarityScore_prob` at the one-label vocabulary
[[1]] and the query [1]. -/
theorem similarityScore_prob_witness :
    ([[(1 : ℝ)]] : List (List ℝ)) ≠ [] ∧
    (∀ t ∈ ([[(1 : ℝ)]] : List (List ℝ)), t.length = [(1 : ℝ)].length) ∧
    ((∀ s ∈ similarityScore [(1 : ℝ)] [[(1 : ℝ)]], 0 ≤ s ∧ s ≤ 1) ∧
     (similarityScore [(1 : ℝ)] [[(1 : ℝ)]]).sum = 1 ∧
     (similarityScore [(1 : ℝ)] [[(1 : ℝ)]]).length =
       ([[(1 : ℝ)]] : List (List ℝ)).length) := by
  refine ⟨by simp, by simp, ?_⟩
  exact similarityScore_prob [(1 : ℝ)] [[(1 : ℝ)]] (by simp) (by simp)

end PhotoSearch
